import Mathlib

/-!
Shallow embedding of the manual-page registry tool (`src/main.rs`) and of the
cross-reference extraction in `find_xrefs_line`.  Rust strings are modelled as
Lean `String`; Rust `Vec<Record>` as `List Record`; fallible operations
(`anyhow::Result`) as `Except`/`Option`, where `none` additionally models a
panic of `Option::unwrap`.  A persisted database file is modelled as its list
of lines (Rust iterates `s.lines()`).
-/

/-- One registry entry, mirroring `struct Record` in `main.rs`:
`link` (alias flag), `sect`, `page`, `pkg` (owner) and `orig_sect`
(provenance: the section held before a simulated relocation). -/
structure Record where
  link : Bool
  sect : String
  page : String
  pkg : String
  orig_sect : Option String
deriving DecidableEq

/-- The registry, mirroring `struct Database { records: Vec<Record> }`. -/
structure Database where
  records : List Record
deriving DecidableEq

/-- Lexicographic comparison of char lists by code point; agrees with Rust's
`str::cmp` (byte-wise UTF-8 comparison orders code points identically). -/
def charListCmp : List Char → List Char → Ordering
  | [], [] => .eq
  | [], _ :: _ => .lt
  | _ :: _, [] => .gt
  | a :: as, b :: bs =>
    if a.val < b.val then .lt
    else if b.val < a.val then .gt
    else charListCmp as bs

/-- String comparison used by the Rust comparator. -/
def strCmp (a b : String) : Ordering := charListCmp a.data b.data

/-- The comparator in `Database::insert` / `Database::transform`:
compare by `sect`, then by `page`. -/
def recCmp (a b : Record) : Ordering :=
  match strCmp a.sect b.sect with
  | .eq => strCmp a.page b.page
  | x => x

/-- `a` may be placed before `b` under the comparator (non-strict order). -/
def recLe (a b : Record) : Bool := !(recCmp a b == .gt)

/-- Insert into a sorted list in front of the first element not below `a`;
building block of the stable sort modelling `Vec::sort_by`. -/
def insLe (le : α → α → Bool) (a : α) : List α → List α
  | [] => [a]
  | b :: bs => if le a b then a :: b :: bs else b :: insLe le a bs

/-- Stable insertion sort modelling `Vec::sort_by` (any stable sort with the
same comparator produces the same list). -/
def sortBy (le : α → α → Bool) : List α → List α
  | [] => []
  | a :: as => insLe le a (sortBy le as)

/-- Re-sorting of `self.records` after a push, as in `Database::insert` and
`Database::transform`. -/
def sortRecords (rs : List Record) : List Record := sortBy recLe rs

/-- `Database::insert`: scan for an existing record with the same
(`sect`, `page`); on a hit fail, reporting the new and the conflicting
existing record (the payload of the `bail!`); otherwise push and re-sort. -/
def Database.insert (db : Database) (link : Bool) (sect page pkg : String) :
    Except (Record × Record) Database :=
  let nr : Record := ⟨link, sect, page, pkg, none⟩
  match db.records.find? (fun r => r.sect == nr.sect && r.page == nr.page) with
  | some r => .error (nr, r)
  | none => .ok ⟨sortRecords (db.records ++ [nr])⟩

/-- State-passing view of `insert` on `&mut self`: the `bail!` happens before
the push, so on failure the receiver is unchanged; the second component is
the reported conflict, if any. -/
def Database.insertS (db : Database) (link : Bool) (sect page pkg : String) :
    Database × Option (Record × Record) :=
  match db.insert link sect page pkg with
  | .ok db2 => (db2, none)
  | .error e => (db, some e)

/-- The fields of one persisted line: Rust `l.split('\t')`. -/
def lineFields (l : String) : List String :=
  (l.data.splitOn '\t').map String.mk

/-- Parsing of one line in `Database::load`: exactly four tab-separated
fields, the first being `l` (alias) or `f` (file). -/
def parseLine (l : String) : Except String Record :=
  match lineFields l with
  | [k, s, p, o] =>
    if k = "l" then .ok ⟨true, s, p, o, none⟩
    else if k = "f" then .ok ⟨false, s, p, o, none⟩
    else .error "invalid link field"
  | _ => .error "broken record"

/-- The record-collection loop of `Database::load`, stopping at the first
malformed line; input order is preserved. -/
def loadRecords : List String → Except String (List Record)
  | [] => .ok []
  | l :: ls =>
    match parseLine l with
    | .error e => .error e
    | .ok r =>
      match loadRecords ls with
      | .error e => .error e
      | .ok rs => .ok (r :: rs)

/-- `Database::load`, with the file given as its list of lines. -/
def Database.load (ls : List String) : Except String Database :=
  match loadRecords ls with
  | .error e => .error e
  | .ok rs => .ok ⟨rs⟩

/-- Serialization of one record, as in the `mkdb` output loop:
`println!("{}\t{}\t{}\t{}", l, rec.sect, rec.page, rec.pkg)`. -/
def persistLine (r : Record) : String :=
  (if r.link then "l" else "f") ++ "\t" ++ r.sect ++ "\t" ++ r.page ++ "\t" ++ r.pkg

/-- `persist`: serialize the records in current order, one line each. -/
def Database.persist (db : Database) : List String :=
  db.records.map persistLine

/-- `Database::lookup`: linear scan for an exact (`sect`, `page`) match,
returning the first hit. -/
def Database.lookup (db : Database) (sect page : String) : Option Record :=
  db.records.find? (fun r => r.page == page && r.sect == sect)

/-- The per-record relocation rule of `Database::transform`.  `none` models
the panic of `r.sect.chars().next().unwrap()` on an empty section. -/
def transformRecord (r : Record) : Option Record :=
  if r.sect = "1M" then
    some ⟨r.link, "8", r.page, r.pkg, some "1M"⟩
  else
    match r.sect.data with
    | [] => none
    | s :: sub =>
      if s = '4' then
        some ⟨r.link, "5" ++ String.mk sub, r.page, r.pkg, some r.sect⟩
      else if s = '5' then
        some ⟨r.link, "7" ++ String.mk sub, r.page, r.pkg, some r.sect⟩
      else if s = '7' then
        some ⟨r.link, "4" ++ String.mk sub, r.page, r.pkg, some r.sect⟩
      else
        some r

/-- The record loop of `Database::transform`, propagating a panic. -/
def transformRecords : List Record → Option (List Record)
  | [] => some []
  | r :: rs =>
    match transformRecord r with
    | none => none
    | some r2 =>
      match transformRecords rs with
      | none => none
      | some rs2 => some (r2 :: rs2)

/-- `Database::transform`: relocate every record, then re-sort. -/
def Database.transform (db : Database) : Option Database :=
  match transformRecords db.records with
  | none => none
  | some out => some ⟨sortRecords out⟩

/-- One iteration of the `simulate` loop in `main`: report the (page, sect)
of an original record when its key is found in the derived registry with
provenance set; otherwise report nothing. -/
def simulateStep (newdb : Database) (r : Record) : Option (String × String) :=
  match newdb.lookup r.sect r.page with
  | some conflict => if conflict.orig_sect.isSome then some (r.page, r.sect) else none
  | none => none

/-- The `simulate` command: transform the registry, then collect the
"old page is obscured" reports over the original records, in order. -/
def simulate (db : Database) : Option (List (String × String)) :=
  match db.transform with
  | none => none
  | some newdb => some (db.records.filterMap (simulateStep newdb))

/-- Association lookup in the conflicts grouping (models
`BTreeMap::get`-like access for the specification of `entry`). -/
def lookupA : List (String × List String) → String → Option (List String)
  | [], _ => none
  | (p, ss) :: rest, page => if p = page then some ss else lookupA rest page

/-- `if !c.contains(&r.sect) { c.push(r.sect) }`: append when absent. -/
def pushNew (ss : List String) (s : String) : List String :=
  if s ∈ ss then ss else ss ++ [s]

/-- `conflicts.entry(page).or_default()` followed by a push of `sect` when
not already present; the association list keeps keys in first-appearance
order, mirroring map insertion. -/
def addSect : List (String × List String) → String → String → List (String × List String)
  | [], page, sect => [(page, [sect])]
  | (p, ss) :: rest, page, sect =>
    if p = page then (p, pushNew ss sect) :: rest
    else (p, ss) :: addSect rest page sect

/-- One iteration of the grouping loop in the `conflicts` command; `none`
models the panic of `r.sect.chars().next().unwrap()` on an empty section. -/
def conflictsStep (m : List (String × List String)) (r : Record) :
    Option (List (String × List String)) :=
  match r.sect.data with
  | [] => none
  | c :: _ =>
    some (if c = '4' ∨ c = '5' ∨ c = '7' then addSect m r.page r.sect else m)

/-- The grouping loop of the `conflicts` command over all records. -/
def conflictsFold : List (String × List String) → List Record →
    Option (List (String × List String))
  | m, [] => some m
  | m, r :: rs =>
    match conflictsStep m r with
    | none => none
    | some m2 => conflictsFold m2 rs

/-- Order on map entries by key, modelling `BTreeMap` iteration order. -/
def entryLe (a b : String × List String) : Bool := !(strCmp a.1 b.1 == .gt)

/-- The `conflicts` command: group the restricted records by page, iterate
the map in key order, and keep the pages with two or more sections. -/
def conflictsReport (db : Database) : Option (List (String × List String)) :=
  match conflictsFold [] db.records with
  | none => none
  | some m => some ((sortBy entryLe m).filter (fun e => 2 ≤ e.2.length))

/-- Character class of a page name in both regexes: `[a-zA-Z_0-9+.-]`. -/
def pageClass (c : Char) : Bool :=
  c.isAlpha || c.isDigit || c == '_' || c == '+' || c == '.' || c == '-'

/-- Character class of the section tail in both regexes: `[^\[)]`. -/
def sectClass (c : Char) : Bool := !(c == '[' || c == ')')

/-- Consume an exact literal prefix, or fail. -/
def stripLit : List Char → List Char → Option (List Char)
  | [], cs => some cs
  | _ :: _, [] => none
  | p :: ps, c :: cs => if c = p then stripLit ps cs else none

/-- Attempt a match of `RE2` (`doubled = true`) or `RE` (`doubled = false`)
anchored at the start of `cs`, returning the `sect` and `page` captures and
the remaining input.  The patterns are
`\fB\fB(page)\fR\fR\((sect)\)` and `\fB(page)\fR\((sect)\)` with
`page = [a-zA-Z_0-9+.-]+` and `sect = [0-9][^\[)]*`; both character classes
exclude the characters that follow them, so greedy matching is the maximal
run and the regex match at a position is deterministic. -/
def matchAt (doubled : Bool) (cs : List Char) :
    Option ((String × String) × List Char) :=
  let boldOpen : List Char :=
    if doubled then ['\\', 'f', 'B', '\\', 'f', 'B'] else ['\\', 'f', 'B']
  let boldClose : List Char :=
    if doubled then ['\\', 'f', 'R', '\\', 'f', 'R'] else ['\\', 'f', 'R']
  match stripLit boldOpen cs with
  | none => none
  | some cs1 =>
    match cs1.takeWhile pageClass with
    | [] => none
    | p :: ps =>
      match stripLit boldClose (cs1.dropWhile pageClass) with
      | none => none
      | some cs2 =>
        match stripLit ['('] cs2 with
        | none => none
        | some cs3 =>
          match cs3 with
          | [] => none
          | d :: cs4 =>
            if d.isDigit then
              match stripLit [')'] (cs4.dropWhile sectClass) with
              | none => none
              | some cs5 =>
                some ((String.mk (d :: cs4.takeWhile sectClass),
                       String.mk (p :: ps)), cs5)
            else none

/-- Fuelled scan modelling `captures_iter`: try a match at every position,
left to right; after a match continue at its end (matches never overlap). -/
def scanAux (doubled : Bool) : Nat → List Char → List (String × String)
  | 0, _ => []
  | _ + 1, [] => []
  | fuel + 1, c :: cs =>
    match matchAt doubled (c :: cs) with
    | some (sp, rest) => sp :: scanAux doubled fuel rest
    | none => scanAux doubled fuel cs

/-- All `(sect, page)` capture pairs of one regex over a line.  A match
consumes at least one character, so fuel `length` never runs out early. -/
def runRegex (doubled : Bool) (l : String) : List (String × String) :=
  scanAux doubled l.data.length l.data

/-- Substring test for the italic escape `\fI`, modelling
`sect.contains("\\fI")`. -/
def hasItalic : List Char → Bool
  | '\\' :: 'f' :: 'I' :: _ => true
  | _ :: rest => hasItalic rest
  | [] => false

/-- ASCII uppercasing, modelling `str::to_uppercase` on the ASCII subset the
corpus uses. -/
def asciiUpper (s : String) : String := String.mk (s.data.map Char.toUpper)

/-- The post-match filter applied to each candidate in `find_xrefs_line`:
drop a section containing `\fI` silently, and drop (with a diagnostic, not
modelled) a section that is not already all upper-case. -/
def keepCand (sp : String × String) : Bool :=
  !(hasItalic sp.1.data) && (sp.1 == asciiUpper sp.1)

/-- `find_xrefs_line`: the filtered `RE2` captures followed by the filtered
`RE` captures. -/
def findXrefsLine (l : String) : List (String × String) :=
  (runRegex true l).filter keepCand ++ (runRegex false l).filter keepCand

/-- Well-formedness of one persisted line as the round-trip claim assumes it:
four tab-separated fields whose kind flag is `l` or `f`. -/
def wfLine (l : String) : Bool :=
  match lineFields l with
  | [k, _, _, _] => k == "l" || k == "f"
  | _ => false

/-- The uniqueness invariant: no two records of the registry share an
identical (`sect`, `page`) pair. -/
def keysOk (db : Database) : Prop :=
  db.records.Pairwise (fun a b => ¬(a.sect = b.sect ∧ a.page = b.page))

/-- A record whose section's first character is `4`, `5` or `7`; the subset
the `conflicts` command groups. -/
def restrictedB (r : Record) : Bool :=
  match r.sect.data with
  | [] => false
  | c :: _ => c == '4' || c == '5' || c == '7'

/-- Deduplication keeping first occurrences, in order of first appearance. -/
def firstDedup (l : List String) : List String := l.foldl pushNew []

/-- The distinct sections in which `page` appears among the restricted
records, in order of first appearance. -/
def pageSects (rs : List Record) (page : String) : List String :=
  firstDedup ((rs.filter (fun r => restrictedB r && r.page == page)).map (fun r => r.sect))

/-- The contents of the grouping map at one page: no entry while no
restricted record mentions the page, the collected sections afterwards. -/
def optSects (l : List String) : Option (List String) :=
  if l = [] then none else some l

/-- The key list of the grouping map. -/
def keysOfM (m : List (String × List String)) : List String :=
  m.map (fun e => e.1)

/-- The registry of the spec's obscured-page example:
(`4FS`,`foo`,`pkgA`) and (`5FS`,`foo`,`pkgB`). -/
def exSim : Database :=
  ⟨[⟨false, "4FS", "foo", "pkgA", none⟩, ⟨false, "5FS", "foo", "pkgB", none⟩]⟩

/-- The derived registry `exSim.transform` produces. -/
def exSimT : Database :=
  ⟨[⟨false, "5FS", "foo", "pkgA", some "4FS"⟩, ⟨false, "7FS", "foo", "pkgB", some "5FS"⟩]⟩

/-- The two-record registry of the conflicts example. -/
def exConf : Database :=
  ⟨[⟨false, "4D", "open", "pkgA", none⟩, ⟨false, "5D", "open", "pkgB", none⟩]⟩

/-- The singleton registry of the conflicts example. -/
def exConfSingle : Database := ⟨[⟨false, "4D", "open", "pkgA", none⟩]⟩

/-- A loadable registry whose records are not in sorted order: the same two
conflicting records, file order reversed. -/
def exConfRev : Database :=
  ⟨[⟨false, "5D", "open", "pkgB", none⟩, ⟨false, "4D", "open", "pkgA", none⟩]⟩

/-- A loadable registry holding a record with an empty section field. -/
def exEmptySect : Database := ⟨[⟨false, "", "p", "pkg", none⟩]⟩

/-! ## General lemmas about the sort and the scan -/

theorem insLe_perm (le : α → α → Bool) (a : α) (l : List α) :
    (insLe le a l).Perm (a :: l) := by
  induction l with
  | nil => exact List.Perm.refl _
  | cons b bs ih =>
    simp only [insLe]
    cases h : le a b with
    | true => simp
    | false =>
      simp only [Bool.false_eq_true, if_false]
      exact (ih.cons b).trans (List.Perm.swap a b bs)

theorem sortBy_perm (le : α → α → Bool) (l : List α) : (sortBy le l).Perm l := by
  induction l with
  | nil => exact List.Perm.refl _
  | cons a as ih => exact (insLe_perm le a (sortBy le as)).trans (ih.cons a)

theorem find?_eq_of_unique {p : α → Bool} {l : List α} {a : α}
    (ha : a ∈ l) (hpa : p a = true) (hu : ∀ b ∈ l, p b = true → b = a) :
    l.find? p = some a := by
  induction l with
  | nil => cases ha
  | cons x xs ih =>
    cases hpx : p x with
    | true =>
      have hxa : x = a := hu x (List.mem_cons_self x xs) hpx
      subst hxa
      simp [List.find?, hpa]
    | false =>
      have ha2 : a ∈ xs := by
        rcases List.mem_cons.1 ha with h | h
        · exact absurd (h ▸ hpa) (by simp [hpx])
        · exact h
      simp only [List.find?, hpx]
      exact ih ha2 (fun b hb hpb => hu b (List.mem_cons_of_mem x hb) hpb)

/-! ## C1: conflict-free, atomic insert -/

/-- C1 (amended): for every registry state holding no record with the given
(section, page) and two inserts of that key with different owners, the first
insert succeeds, the second fails identifying both the new record and the
conflicting record inserted first, and the registry after the failed insert
is exactly the registry after the first insert. -/
theorem futzman_C1 (db : Database) (link1 link2 : Bool) (sect page pkg1 pkg2 : String)
    (hpkg : pkg1 ≠ pkg2)
    (hfree : ∀ r ∈ db.records, ¬(r.sect = sect ∧ r.page = page)) :
    ∃ db1 : Database,
      db.insertS link1 sect page pkg1 = (db1, none) ∧
      db1.insertS link2 sect page pkg2 =
        (db1, some (⟨link2, sect, page, pkg2, none⟩, ⟨link1, sect, page, pkg1, none⟩)) := by
  have hfind : db.records.find? (fun r => r.sect == sect && r.page == page) = none := by
    apply List.find?_eq_none.2
    intro r hr
    have hnr := hfree r hr
    simp only [Bool.and_eq_true, beq_iff_eq, not_and]
    intro h1 h2
    exact hnr ⟨h1, h2⟩
  refine ⟨⟨sortRecords (db.records ++ [⟨link1, sect, page, pkg1, none⟩])⟩, ?_, ?_⟩
  · simp [Database.insertS, Database.insert, hfind]
  · have hmem : (⟨link1, sect, page, pkg1, none⟩ : Record) ∈
        sortRecords (db.records ++ [⟨link1, sect, page, pkg1, none⟩]) :=
      (sortBy_perm _ _).mem_iff.2 (by simp)
    have hfind2 : (sortRecords (db.records ++ [⟨link1, sect, page, pkg1, none⟩])).find?
        (fun r => r.sect == sect && r.page == page) =
        some ⟨link1, sect, page, pkg1, none⟩ := by
      apply find?_eq_of_unique hmem (by simp)
      intro b hb hpb
      have hb2 : b ∈ db.records ++ [⟨link1, sect, page, pkg1, none⟩] :=
        (sortBy_perm _ _).mem_iff.1 hb
      rcases List.mem_append.1 hb2 with h | h
      · exact absurd (by simpa [Bool.and_eq_true, beq_iff_eq] using hpb) (hfree b h)
      · simpa using h
    simp [Database.insertS, Database.insert, hfind2]

/-- C1 counterexample to the claim as stated: its quantification over every
registry state is wrong, because when the registry already holds the
(section, page) key the FIRST of the two inserts (owners `pkgA` and `pkgB`,
distinct) already fails, leaving the registry unchanged. -/
theorem futzman_C1_cex :
    (Database.mk [⟨false, "4FS", "foo", "pkgC", none⟩]).insertS false "4FS" "foo" "pkgA" =
      (⟨[⟨false, "4FS", "foo", "pkgC", none⟩]⟩,
       some (⟨false, "4FS", "foo", "pkgA", none⟩, ⟨false, "4FS", "foo", "pkgC", none⟩)) ∧
    ("pkgA" : String) ≠ "pkgB" := by
  exact ⟨rfl, by decide⟩

/-- Witness for `futzman_C1` at a concrete registry. -/
theorem futzman_C1_witness :
    ∃ db1 : Database,
      (Database.mk [⟨false, "1", "intro", "pkgs", none⟩]).insertS false "4FS" "foo" "pkgA" =
        (db1, none) ∧
      db1.insertS true "4FS" "foo" "pkgB" =
        (db1, some (⟨true, "4FS", "foo", "pkgB", none⟩, ⟨false, "4FS", "foo", "pkgA", none⟩)) :=
  futzman_C1 ⟨[⟨false, "1", "intro", "pkgs", none⟩]⟩ false true "4FS" "foo" "pkgA" "pkgB"
    (by decide) (by decide)

/-! ## C2: load/persist round trip -/

theorem fields_data (l : String) (k s p o : String) (h : lineFields l = [k, s, p, o]) :
    l.data.splitOn '\t' = [k.data, s.data, p.data, o.data] := by
  have h2 := congrArg (List.map String.data) h
  have hmk : ∀ x : List Char, (String.mk x).data = x := fun _ => rfl
  simpa [lineFields, List.map_map, Function.comp_def, hmk] using h2

theorem line_recombine (l : String) (k s p o : String) (h : lineFields l = [k, s, p, o]) :
    l.data = k.data ++ '\t' :: (s.data ++ '\t' :: (p.data ++ '\t' :: o.data)) := by
  have h1 : ['\t'].intercalate (l.data.splitOn '\t') = l.data :=
    List.intercalate_splitOn l.data '\t'
  rw [fields_data l k s p o h] at h1
  rw [← h1]
  simp [List.intercalate, List.intersperse]

theorem parseLine_persistLine (l : String) (h : wfLine l = true) :
    ∃ r : Record, parseLine l = .ok r ∧ persistLine r = l := by
  unfold wfLine at h
  split at h
  next k s p o heq =>
    have hdat := line_recombine l k s p o heq
    rcases Bool.or_eq_true_iff.1 h with hk | hk
    · have hk2 : k = "l" := by simpa [beq_iff_eq] using hk
      refine ⟨⟨true, s, p, o, none⟩, ?_, ?_⟩
      · simp [parseLine, heq, hk2]
      · apply String.ext
        simp [persistLine, String.data_append, hdat, ← hk2]
    · have hk2 : k = "f" := by simpa [beq_iff_eq] using hk
      refine ⟨⟨false, s, p, o, none⟩, ?_, ?_⟩
      · simp [parseLine, heq, hk2]
      · apply String.ext
        simp [persistLine, String.data_append, hdat, ← hk2]
  next => exact absurd h (by simp)

theorem loadRecords_persist (ls : List String) (h : ∀ l ∈ ls, wfLine l = true) :
    ∃ rs : List Record, loadRecords ls = .ok rs ∧ rs.map persistLine = ls := by
  induction ls with
  | nil => exact ⟨[], rfl, rfl⟩
  | cons l ls ih =>
    obtain ⟨r, hr, hpl⟩ := parseLine_persistLine l (h l (List.mem_cons_self l ls))
    obtain ⟨rs, hrs, hps⟩ := ih (fun x hx => h x (List.mem_cons_of_mem l hx))
    exact ⟨r :: rs, by simp [loadRecords, hr, hrs], by simp [hpl, hps]⟩

/-- C2: for every well-formed persisted registry text (each line four
tab-separated fields with kind flag `l` or `f`), whatever the line order,
`load` succeeds and `persist` of the loaded registry reproduces the input
lines exactly — in particular the record set — because `load` preserves
input order and `persist` writes the records in current order with the same
tab-separated column order `load` reads. -/
theorem futzman_C2 (ls : List String) (h : ∀ l ∈ ls, wfLine l = true) :
    ∃ db : Database, Database.load ls = .ok db ∧ db.persist = ls := by
  obtain ⟨rs, hrs, hps⟩ := loadRecords_persist ls h
  exact ⟨⟨rs⟩, by simp [Database.load, hrs], by simpa [Database.persist] using hps⟩

/-- Witness for `futzman_C2` on a concrete two-line file, unsorted order. -/
theorem futzman_C2_witness :
    ∃ db : Database,
      Database.load ["f\t5FS\tfoo\tpkgB", "l\t4FS\tbar\tpkgA"] = .ok db ∧
      db.persist = ["f\t5FS\tfoo\tpkgB", "l\t4FS\tbar\tpkgA"] :=
  futzman_C2 ["f\t5FS\tfoo\tpkgB", "l\t4FS\tbar\tpkgA"] (by decide)

/-! ## C3: uniqueness invariant -/

/-- C3 (amended): the uniqueness invariant — no two records share a
(section, page) pair — is preserved by every successful `insert`; registries
produced by `load` from an arbitrary well-formed file (or by `transform`)
need not satisfy it, see the counterexample. -/
theorem futzman_C3 (db : Database) (link : Bool) (sect page pkg : String) (db2 : Database)
    (h : keysOk db) (h2 : db.insert link sect page pkg = .ok db2) : keysOk db2 := by
  have hsymm : ∀ {x y : Record}, ¬(x.sect = y.sect ∧ x.page = y.page) →
      ¬(y.sect = x.sect ∧ y.page = x.page) :=
    fun hxy hyx => hxy ⟨hyx.1.symm, hyx.2.symm⟩
  cases hf : db.records.find? (fun r => r.sect == sect && r.page == page) with
  | some r => simp [Database.insert, hf] at h2
  | none =>
    simp only [Database.insert, hf] at h2
    injection h2 with h2
    subst h2
    unfold keysOk
    apply ((sortBy_perm recLe _).pairwise_iff hsymm).2
    rw [List.pairwise_append]
    refine ⟨h, List.pairwise_singleton _ _, ?_⟩
    intro a ha b hb
    simp only [List.mem_singleton] at hb
    subst hb
    have hna := List.find?_eq_none.1 hf a ha
    simpa [Bool.and_eq_true, beq_iff_eq] using hna

/-- C3 counterexample to the claim as stated: `load` accepts a well-formed
file whose two rows share the (section, page) pair (`A`,`p`), producing a
registry that violates the uniqueness invariant. -/
theorem futzman_C3_cex :
    Database.load ["f\tA\tp\tx", "f\tA\tp\ty"] =
      .ok ⟨[⟨false, "A", "p", "x", none⟩, ⟨false, "A", "p", "y", none⟩]⟩ ∧
    ¬ keysOk ⟨[⟨false, "A", "p", "x", none⟩, ⟨false, "A", "p", "y", none⟩]⟩ :=
  ⟨rfl, by unfold keysOk; decide⟩

/-- Witness for `futzman_C3` on a concrete registry and insert. -/
theorem futzman_C3_witness :
    keysOk ⟨[⟨false, "1", "a", "p", none⟩, ⟨false, "2", "b", "q", none⟩]⟩ :=
  futzman_C3 ⟨[⟨false, "1", "a", "p", none⟩]⟩ false "2" "b" "q"
    ⟨[⟨false, "1", "a", "p", none⟩, ⟨false, "2", "b", "q", none⟩]⟩ (by unfold keysOk; decide) rfl

/-! ## C4: the 4/5/7 relocation 3-cycle -/

theorem transform_sect4 (r : Record) (rest : List Char) (hs : r.sect.data = '4' :: rest) :
    transformRecord r = some ⟨r.link, "5" ++ String.mk rest, r.page, r.pkg, some r.sect⟩ := by
  have h1M : r.sect ≠ "1M" := by
    intro he
    rw [he] at hs
    exact absurd (List.head_eq_of_cons_eq hs) (by decide)
  simp [transformRecord, h1M, hs]

theorem transform_sect5 (r : Record) (rest : List Char) (hs : r.sect.data = '5' :: rest) :
    transformRecord r = some ⟨r.link, "7" ++ String.mk rest, r.page, r.pkg, some r.sect⟩ := by
  have h1M : r.sect ≠ "1M" := by
    intro he
    rw [he] at hs
    exact absurd (List.head_eq_of_cons_eq hs) (by decide)
  simp [transformRecord, h1M, hs]

theorem transform_sect7 (r : Record) (rest : List Char) (hs : r.sect.data = '7' :: rest) :
    transformRecord r = some ⟨r.link, "4" ++ String.mk rest, r.page, r.pkg, some r.sect⟩ := by
  have h1M : r.sect ≠ "1M" := by
    intro he
    rw [he] at hs
    exact absurd (List.head_eq_of_cons_eq hs) (by decide)
  simp [transformRecord, h1M, hs]

theorem data_lit_cons (c : Char) (rest : List Char) :
    (String.singleton c ++ String.mk rest).data = c :: rest := by
  rw [String.data_append]
  rfl

/-- C4: for every record whose section starts with `4`, `5` or `7`, applying
the relocation rule three times in succession restores the original section
string, and one application maps leading 4 to 5, 5 to 7 and 7 to 4 keeping
the suffix (and the page) unchanged. -/
theorem futzman_C4 (r : Record) (c : Char) (rest : List Char)
    (hs : r.sect.data = c :: rest) (hc : c = '4' ∨ c = '5' ∨ c = '7') :
    ∃ r1 r2 r3 : Record,
      transformRecord r = some r1 ∧ transformRecord r1 = some r2 ∧
      transformRecord r2 = some r3 ∧ r3.sect = r.sect ∧
      r1.page = r.page ∧ r2.page = r.page ∧ r3.page = r.page ∧
      (c = '4' → r1.sect = "5" ++ String.mk rest) ∧
      (c = '5' → r1.sect = "7" ++ String.mk rest) ∧
      (c = '7' → r1.sect = "4" ++ String.mk rest) := by
  have h5 : ("5" ++ String.mk rest).data = '5' :: rest := data_lit_cons '5' rest
  have h7 : ("7" ++ String.mk rest).data = '7' :: rest := data_lit_cons '7' rest
  have h4 : ("4" ++ String.mk rest).data = '4' :: rest := data_lit_cons '4' rest
  rcases hc with hc | hc | hc
  · subst hc
    exact ⟨⟨r.link, "5" ++ String.mk rest, r.page, r.pkg, some r.sect⟩,
      ⟨r.link, "7" ++ String.mk rest, r.page, r.pkg, some ("5" ++ String.mk rest)⟩,
      ⟨r.link, "4" ++ String.mk rest, r.page, r.pkg, some ("7" ++ String.mk rest)⟩,
      transform_sect4 r rest hs, transform_sect5 _ rest h5, transform_sect7 _ rest h7,
      String.ext (h4.trans hs.symm), rfl, rfl, rfl, fun _ => rfl,
      fun hx => absurd hx (by decide), fun hx => absurd hx (by decide)⟩
  · subst hc
    exact ⟨⟨r.link, "7" ++ String.mk rest, r.page, r.pkg, some r.sect⟩,
      ⟨r.link, "4" ++ String.mk rest, r.page, r.pkg, some ("7" ++ String.mk rest)⟩,
      ⟨r.link, "5" ++ String.mk rest, r.page, r.pkg, some ("4" ++ String.mk rest)⟩,
      transform_sect5 r rest hs, transform_sect7 _ rest h7, transform_sect4 _ rest h4,
      String.ext (h5.trans hs.symm), rfl, rfl, rfl,
      fun hx => absurd hx (by decide), fun _ => rfl, fun hx => absurd hx (by decide)⟩
  · subst hc
    exact ⟨⟨r.link, "4" ++ String.mk rest, r.page, r.pkg, some r.sect⟩,
      ⟨r.link, "5" ++ String.mk rest, r.page, r.pkg, some ("4" ++ String.mk rest)⟩,
      ⟨r.link, "7" ++ String.mk rest, r.page, r.pkg, some ("5" ++ String.mk rest)⟩,
      transform_sect7 r rest hs, transform_sect4 _ rest h4, transform_sect5 _ rest h5,
      String.ext (h7.trans hs.symm), rfl, rfl, rfl,
      fun hx => absurd hx (by decide), fun hx => absurd hx (by decide), fun _ => rfl⟩

/-- Witness for `futzman_C4` at the concrete section `4FS`. -/
theorem futzman_C4_witness :
    ∃ r1 r2 r3 : Record,
      transformRecord ⟨false, "4FS", "x", "p", none⟩ = some r1 ∧
      transformRecord r1 = some r2 ∧ transformRecord r2 = some r3 ∧
      r3.sect = ("4FS" : String) ∧
      r1.page = ("x" : String) ∧ r2.page = ("x" : String) ∧ r3.page = ("x" : String) ∧
      ('4' = '4' → r1.sect = "5" ++ String.mk ['F', 'S']) ∧
      ('4' = '5' → r1.sect = "7" ++ String.mk ['F', 'S']) ∧
      ('4' = '7' → r1.sect = "4" ++ String.mk ['F', 'S']) :=
  futzman_C4 ⟨false, "4FS", "x", "p", none⟩ '4' ['F', 'S'] rfl (Or.inl rfl)

/-! ## C5: obscured-page simulation -/

/-- C5: when `transform` succeeds, `simulate` reports, over the original
records in order, exactly those records whose (section, page) key is found
in the derived registry with provenance set; a record whose key has no match,
or whose match has provenance unset, contributes nothing.  On the spec's
example registry — (`4FS`,`foo`,`pkgA`) and (`5FS`,`foo`,`pkgB`) — exactly
pkgB's original page (`5FS`,`foo`) is reported obscured. -/
theorem futzman_C5 (db newdb : Database) (h : db.transform = some newdb) :
    simulate db = some (db.records.filterMap (simulateStep newdb)) ∧
    (∀ r c : Record, newdb.lookup r.sect r.page = some c → c.orig_sect.isSome = true →
      simulateStep newdb r = some (r.page, r.sect)) ∧
    (∀ r : Record, newdb.lookup r.sect r.page = none → simulateStep newdb r = none) ∧
    (∀ r c : Record, newdb.lookup r.sect r.page = some c → c.orig_sect = none →
      simulateStep newdb r = none) ∧
    (∀ r ∈ db.records, ∀ c : Record, newdb.lookup r.sect r.page = some c →
      c.orig_sect.isSome = true →
      (r.page, r.sect) ∈ db.records.filterMap (simulateStep newdb)) ∧
    simulate exSim = some [("foo", "5FS")] := by
  refine ⟨by simp [simulate, h], ?_, ?_, ?_, ?_, by decide⟩
  · intro r c hl ho
    simp [simulateStep, hl, ho]
  · intro r hl
    simp [simulateStep, hl]
  · intro r c hl ho
    simp [simulateStep, hl, ho]
  · intro r hr c hl ho
    exact List.mem_filterMap.2 ⟨r, hr, by simp [simulateStep, hl, ho]⟩

/-- Witness for `futzman_C5` on the example registry. -/
theorem futzman_C5_witness : simulate exSim = some [("foo", "5FS")] :=
  (futzman_C5 exSim exSimT (by decide)).2.2.2.2.2

/-! ## C7 and C8: cross-reference extraction -/

/-- C7: the doubled-bold content line around `open` followed by `(2)` yields
exactly the cross-reference (`2`, `open`); with the section written `(2x)`
the raw scan still produces the candidate (`2x`, `open`) but, not being
purely upper-case, it is discarded (the code also emits a diagnostic, not
modelled here) and the output is empty; in general every candidate in the
output is purely upper-case. -/
theorem futzman_C7 :
    findXrefsLine "\\fB\\fBopen\\fR\\fR(2)" = [("2", "open")] ∧
    runRegex true "\\fB\\fBopen\\fR\\fR(2x)" = [("2x", "open")] ∧
    findXrefsLine "\\fB\\fBopen\\fR\\fR(2x)" = [] ∧
    (∀ (l : String) (sp : String × String), sp ∈ findXrefsLine l →
      sp.1 = asciiUpper sp.1 ∧ hasItalic sp.1.data = false) := by
  refine ⟨by decide, by decide, by decide, ?_⟩
  intro l sp hsp
  rcases List.mem_append.1 hsp with hm | hm <;>
  · have hk := (List.mem_filter.1 hm).2
    unfold keepCand at hk
    simp only [Bool.and_eq_true, Bool.not_eq_true', beq_iff_eq] at hk
    exact ⟨hk.2, hk.1⟩

/-- Witness for `futzman_C7`, applying its universal part at the example. -/
theorem futzman_C7_witness :
    ("2" : String) = asciiUpper "2" ∧ hasItalic ("2" : String).data = false :=
  futzman_C7.2.2.2 "\\fB\\fBopen\\fR\\fR(2)" ("2", "open") (by decide)

theorem matchAt_shape (doubled : Bool) (cs : List Char) (sect page : String) (rest : List Char)
    (h : matchAt doubled cs = some ((sect, page), rest)) :
    (page.data ≠ [] ∧ ∀ c ∈ page.data, pageClass c = true) ∧
    ∃ d run, sect.data = d :: run ∧ d.isDigit = true ∧ ∀ c ∈ run, c ≠ '[' ∧ c ≠ ')' := by
  simp only [matchAt] at h
  split at h
  next => exact Option.noConfusion h
  next cs1 hstrip1 =>
    split at h
    next hpage => exact Option.noConfusion h
    next p ps hpage =>
      split at h
      next => exact Option.noConfusion h
      next cs2 hstrip2 =>
        split at h
        next => exact Option.noConfusion h
        next cs3 hstrip3 =>
          split at h
          next => exact Option.noConfusion h
          next d tail =>
            split at h
            next hdig =>
              split at h
              next => exact Option.noConfusion h
              next cs5 hstrip4 =>
                simp only [Option.some.injEq, Prod.mk.injEq] at h
                obtain ⟨⟨hsect, hpg⟩, hrest⟩ := h
                constructor
                · rw [← hpg]
                  refine ⟨by simp, ?_⟩
                  intro c hc
                  have hctw : c ∈ cs1.takeWhile pageClass := by
                    rw [hpage]
                    simpa using hc
                  exact List.mem_takeWhile_imp hctw
                · refine ⟨d, tail.takeWhile sectClass, by rw [← hsect], hdig, ?_⟩
                  intro c hc
                  have hsc := List.mem_takeWhile_imp hc
                  unfold sectClass at hsc
                  simp only [Bool.not_eq_true', Bool.or_eq_false_iff, beq_eq_false_iff_ne] at hsc
                  exact hsc
            next hdig => exact Option.noConfusion h

theorem scanAux_mem (doubled : Bool) (fuel : Nat) (cs : List Char) (sp : String × String)
    (h : sp ∈ scanAux doubled fuel cs) :
    ∃ cs0 rest, matchAt doubled cs0 = some (sp, rest) := by
  induction fuel generalizing cs with
  | zero => simp [scanAux] at h
  | succ n ih =>
    cases cs with
    | nil => simp [scanAux] at h
    | cons c cs2 =>
      simp only [scanAux] at h
      cases hm : matchAt doubled (c :: cs2) with
      | some pr =>
        obtain ⟨sp2, rest⟩ := pr
        rw [hm] at h
        simp only [List.mem_cons] at h
        rcases h with h | h
        · exact ⟨c :: cs2, rest, by rw [hm, h]⟩
        · exact ih rest h
      | none =>
        rw [hm] at h
        exact ih cs2 h

/-- C8 (amended): in both markup shapes the page name is one or more
characters of the class letters, digits, underscore, `+`, `.`, `-`; the
section token is a DIGIT followed by everything up to the first `[` or `)`
(terminated by `)`), not an arbitrary token up to the first `]` or `)` —
the regexes require a leading `[0-9]` and their class excludes `[`. -/
theorem futzman_C8 (l : String) (sect page : String)
    (h : (sect, page) ∈ findXrefsLine l) :
    (page.data ≠ [] ∧ ∀ c ∈ page.data, pageClass c = true) ∧
    ∃ d run, sect.data = d :: run ∧ d.isDigit = true ∧ ∀ c ∈ run, c ≠ '[' ∧ c ≠ ')' := by
  have hscan : ∃ doubled cs0 rest, matchAt doubled cs0 = some ((sect, page), rest) := by
    rcases List.mem_append.1 h with hm | hm
    · obtain ⟨cs0, rest, hma⟩ :=
        scanAux_mem true _ _ _ (List.mem_filter.1 hm).1
      exact ⟨true, cs0, rest, hma⟩
    · obtain ⟨cs0, rest, hma⟩ :=
        scanAux_mem false _ _ _ (List.mem_filter.1 hm).1
      exact ⟨false, cs0, rest, hma⟩
  obtain ⟨doubled, cs0, rest, hma⟩ := hscan
  exact matchAt_shape doubled cs0 sect page rest hma

/-- C8 counterexample to the claim as stated: the parenthesized token `XY`
after a well-formed doubled-bold page is NOT extracted (no candidate at
all), because its first character is not a digit. -/
theorem futzman_C8_cex :
    findXrefsLine "\\fB\\fBopen\\fR\\fR(XY)" = [] ∧
    runRegex true "\\fB\\fBopen\\fR\\fR(XY)" = [] ∧
    runRegex false "\\fB\\fBopen\\fR\\fR(XY)" = [] := by
  refine ⟨by decide, by decide, by decide⟩

/-- Witness for `futzman_C8` at the concrete extraction (`2`, `open`). -/
theorem futzman_C8_witness :
    (("open" : String).data ≠ [] ∧ ∀ c ∈ ("open" : String).data, pageClass c = true) ∧
    ∃ d run, ("2" : String).data = d :: run ∧ d.isDigit = true ∧
      ∀ c ∈ run, c ≠ '[' ∧ c ≠ ')' :=
  futzman_C8 "\\fB\\fBopen\\fR\\fR(2)" "2" "open" (by decide)

/-! ## C10: non-empty sections as a totality precondition -/

theorem transformRecord_isSome (r : Record) (h : r.sect ≠ "") :
    (transformRecord r).isSome = true := by
  by_cases h1 : r.sect = "1M"
  · simp [transformRecord, h1]
  · cases hd : r.sect.data with
    | nil => exact absurd (String.ext hd) h
    | cons c rest =>
      by_cases h4 : c = '4'
      · simp [transformRecord, h1, hd, h4]
      · by_cases h5 : c = '5'
        · simp [transformRecord, h1, hd, h4, h5]
        · by_cases h7 : c = '7'
          · simp [transformRecord, h1, hd, h4, h5, h7]
          · simp [transformRecord, h1, hd, h4, h5, h7]

theorem transformRecords_isSome (rs : List Record) (h : ∀ r ∈ rs, r.sect ≠ "") :
    (transformRecords rs).isSome = true := by
  induction rs with
  | nil => rfl
  | cons x xs ih =>
    obtain ⟨x2, hx2⟩ := Option.isSome_iff_exists.1
      (transformRecord_isSome x (h x (List.mem_cons_self x xs)))
    obtain ⟨xs2, hxs2⟩ := Option.isSome_iff_exists.1
      (ih (fun r hr => h r (List.mem_cons_of_mem x hr)))
    simp [transformRecords, hx2, hxs2]

theorem transformRecords_none_of_empty (rs : List Record) (r : Record)
    (hr : r ∈ rs) (he : r.sect = "") : transformRecords rs = none := by
  induction rs with
  | nil => cases hr
  | cons x xs ih =>
    rcases List.mem_cons.1 hr with h | h
    · subst h
      have hne : r.sect ≠ "1M" := by rw [he]; decide
      have hd : r.sect.data = [] := by rw [he]
      simp [transformRecords, transformRecord, hne, hd]
    · cases hx : transformRecord x with
      | none => simp [transformRecords, hx]
      | some x2 => simp [transformRecords, hx, ih h]

theorem conflictsStep_isSome (m : List (String × List String)) (r : Record)
    (h : r.sect ≠ "") : (conflictsStep m r).isSome = true := by
  cases hd : r.sect.data with
  | nil => exact absurd (String.ext hd) h
  | cons c rest => simp [conflictsStep, hd]

theorem conflictsFold_isSome (rs : List Record) (h : ∀ r ∈ rs, r.sect ≠ "") :
    ∀ m, (conflictsFold m rs).isSome = true := by
  induction rs with
  | nil => intro m; rfl
  | cons x xs ih =>
    intro m
    obtain ⟨m2, hm2⟩ := Option.isSome_iff_exists.1
      (conflictsStep_isSome m x (h x (List.mem_cons_self x xs)))
    simpa [conflictsFold, hm2] using
      ih (fun r hr => h r (List.mem_cons_of_mem x hr)) m2

theorem conflictsFold_none_of_empty (rs : List Record) (r : Record)
    (hr : r ∈ rs) (he : r.sect = "") : ∀ m, conflictsFold m rs = none := by
  induction rs with
  | nil => cases hr
  | cons x xs ih =>
    intro m
    rcases List.mem_cons.1 hr with h | h
    · subst h
      have hd : r.sect.data = [] := by rw [he]
      simp [conflictsFold, conflictsStep, hd]
    · cases hx : conflictsStep m x with
      | none => simp [conflictsFold, hx]
      | some m2 => simp [conflictsFold, hx, ih h]

/-- C10: `load` accepts a row with an empty section field as well-formed,
and on the loaded registry both `transform` and the `conflicts` grouping hit
the `unwrap` panic (modelled as `none`); they are total exactly on
registries in which every record's section string is non-empty, so that
precondition makes the failure branch unreachable. -/
theorem futzman_C10 :
    (Database.load ["f\t\tp\tpkg"] = .ok exEmptySect ∧
     exEmptySect.transform = none ∧ conflictsReport exEmptySect = none) ∧
    (∀ db : Database, (∀ r ∈ db.records, r.sect ≠ "") →
      (db.transform).isSome = true ∧ (conflictsReport db).isSome = true) ∧
    (∀ db : Database, ∀ r ∈ db.records, r.sect = "" →
      db.transform = none ∧ conflictsReport db = none) := by
  refine ⟨⟨rfl, rfl, rfl⟩, ?_, ?_⟩
  · intro db h
    constructor
    · obtain ⟨out, ho⟩ := Option.isSome_iff_exists.1 (transformRecords_isSome db.records h)
      simp [Database.transform, ho]
    · obtain ⟨m, hm⟩ := Option.isSome_iff_exists.1 (conflictsFold_isSome db.records h [])
      simp [conflictsReport, hm]
  · intro db r hr he
    constructor
    · unfold Database.transform
      rw [transformRecords_none_of_empty db.records r hr he]
    · unfold conflictsReport
      rw [conflictsFold_none_of_empty db.records r hr he []]

/-- Witness for `futzman_C10`, applying both universal parts at concrete
registries. -/
theorem futzman_C10_witness :
    ((Database.mk [⟨false, "1M", "x", "p", none⟩]).transform).isSome = true ∧
    (conflictsReport ⟨[⟨false, "1M", "x", "p", none⟩]⟩).isSome = true ∧
    exEmptySect.transform = none ∧ conflictsReport exEmptySect = none := by
  have h1 := futzman_C10.2.1 ⟨[⟨false, "1M", "x", "p", none⟩]⟩ (by decide)
  have h2 := futzman_C10.2.2 exEmptySect ⟨false, "", "p", "pkg", none⟩
    (by decide) rfl
  exact ⟨h1.1, h1.2, h2.1, h2.2⟩

/-! ## C6: the conflicts report -/

theorem pushNew_ne_nil (ss : List String) (s : String) : pushNew ss s ≠ [] := by
  unfold pushNew
  split
  next h => exact List.ne_nil_of_mem h
  next h => simp

theorem mem_pushNew (acc : List String) (x s : String) :
    s ∈ pushNew acc x ↔ s ∈ acc ∨ s = x := by
  unfold pushNew
  split
  next h => exact ⟨Or.inl, fun h2 => h2.elim id (fun he => he ▸ h)⟩
  next h => simp

theorem pushNew_nodup (acc : List String) (x : String) (h : acc.Nodup) :
    (pushNew acc x).Nodup := by
  unfold pushNew
  split
  next => exact h
  next hx => simp [List.nodup_append, h, hx]

theorem foldl_pushNew_mem (l : List String) :
    ∀ (acc : List String) (s : String), s ∈ l.foldl pushNew acc ↔ s ∈ acc ∨ s ∈ l := by
  induction l with
  | nil => simp
  | cons x xs ih =>
    intro acc s
    rw [List.foldl_cons, ih, mem_pushNew]
    simp only [List.mem_cons]
    tauto

theorem foldl_pushNew_nodup (l : List String) :
    ∀ acc : List String, acc.Nodup → (l.foldl pushNew acc).Nodup := by
  induction l with
  | nil => exact fun acc h => h
  | cons x xs ih => exact fun acc h => ih _ (pushNew_nodup acc x h)

theorem firstDedup_mem (l : List String) (s : String) : s ∈ firstDedup l ↔ s ∈ l := by
  rw [firstDedup, foldl_pushNew_mem]
  simp

theorem firstDedup_nodup (l : List String) : (firstDedup l).Nodup :=
  foldl_pushNew_nodup l [] List.nodup_nil

theorem firstDedup_append_singleton (l : List String) (s : String) :
    firstDedup (l ++ [s]) = pushNew (firstDedup l) s := by
  simp [firstDedup, List.foldl_append]

theorem lookupA_addSect_self (m : List (String × List String)) (page sect : String) :
    lookupA (addSect m page sect) page =
      some (pushNew ((lookupA m page).getD []) sect) := by
  induction m with
  | nil => simp [addSect, lookupA, pushNew]
  | cons e rest ih =>
    obtain ⟨p, ss⟩ := e
    by_cases hp : p = page
    · subst hp
      simp [addSect, lookupA]
    · simp [addSect, lookupA, hp, ih]

theorem lookupA_addSect_other (m : List (String × List String)) (page sect q : String)
    (hq : q ≠ page) : lookupA (addSect m page sect) q = lookupA m q := by
  induction m with
  | nil => simp [addSect, lookupA, Ne.symm hq]
  | cons e rest ih =>
    obtain ⟨p, ss⟩ := e
    by_cases hp : p = page
    · subst hp
      have hpq : p ≠ q := fun h => hq h.symm
      simp [addSect, lookupA, hpq]
    · by_cases hpq : p = q
      · subst hpq
        simp [addSect, lookupA, hp]
      · simp [addSect, lookupA, hp, hpq, ih]

theorem keysOfM_addSect (m : List (String × List String)) (page sect q : String)
    (h : q ∈ keysOfM (addSect m page sect)) : q ∈ keysOfM m ∨ q = page := by
  induction m with
  | nil => exact Or.inr (by simpa [addSect, keysOfM] using h)
  | cons e rest ih =>
    obtain ⟨p, ss⟩ := e
    by_cases hp : p = page
    · subst hp
      exact Or.inl (by simpa [addSect, keysOfM] using h)
    · simp only [addSect, hp, if_false, keysOfM, List.map_cons, List.mem_cons] at h ⊢
      rcases h with h | h
      · exact Or.inl (Or.inl h)
      · rcases ih h with h2 | h2
        · exact Or.inl (Or.inr h2)
        · exact Or.inr h2

theorem keysOfM_addSect_nodup (m : List (String × List String)) (page sect : String)
    (h : (keysOfM m).Nodup) : (keysOfM (addSect m page sect)).Nodup := by
  induction m with
  | nil => simp [addSect, keysOfM]
  | cons e rest ih =>
    obtain ⟨p, ss⟩ := e
    simp only [keysOfM, List.map_cons, List.nodup_cons] at h
    by_cases hp : p = page
    · subst hp
      simpa [addSect, keysOfM, List.nodup_cons] using h
    · simp only [addSect, hp, if_false, keysOfM, List.map_cons, List.nodup_cons]
      refine ⟨?_, ih h.2⟩
      intro hmem
      rcases keysOfM_addSect rest page sect p hmem with h2 | h2
      · exact h.1 h2
      · exact hp h2

theorem mem_iff_lookupA (m : List (String × List String))
    (h : (keysOfM m).Nodup) (page : String) (ss : List String) :
    (page, ss) ∈ m ↔ lookupA m page = some ss := by
  induction m with
  | nil => simp [lookupA]
  | cons e rest ih =>
    obtain ⟨p, ss2⟩ := e
    simp only [keysOfM, List.map_cons, List.nodup_cons] at h
    by_cases hp : p = page
    · subst hp
      constructor
      · intro hmem
        rcases List.mem_cons.1 hmem with heq | hmem2
        · injection heq with h1 h2
          simp [lookupA, h2]
        · exact absurd (List.mem_map_of_mem (fun e => e.1) hmem2) h.1
      · intro hl
        have hss : ss2 = ss := by simpa [lookupA] using hl
        exact List.mem_cons.2 (Or.inl (by rw [hss]))
    · have hl : lookupA ((p, ss2) :: rest) page = lookupA rest page := by
        simp [lookupA, hp]
      rw [hl, ← ih h.2]
      constructor
      · intro hmem
        rcases List.mem_cons.1 hmem with heq | hmem2
        · exact absurd (congrArg Prod.fst heq).symm hp
        · exact hmem2
      · exact fun hmem2 => List.mem_cons.2 (Or.inr hmem2)

theorem pageSects_append_skip (rs : List Record) (r : Record) (page : String)
    (h : (restrictedB r && r.page == page) = false) :
    pageSects (rs ++ [r]) page = pageSects rs page := by
  simp [pageSects, List.filter_append, h]

theorem pageSects_append_hit (rs : List Record) (r : Record)
    (h : restrictedB r = true) :
    pageSects (rs ++ [r]) r.page = pushNew (pageSects rs r.page) r.sect := by
  simp [pageSects, List.filter_append, h, firstDedup_append_singleton]

theorem conflictsFold_inv (rs : List Record) :
    ∀ (pre : List Record) (m m2 : List (String × List String)),
    conflictsFold m rs = some m2 →
    (∀ page, lookupA m page = optSects (pageSects pre page)) →
    (keysOfM m).Nodup →
    (∀ page, lookupA m2 page = optSects (pageSects (pre ++ rs) page)) ∧
      (keysOfM m2).Nodup := by
  induction rs with
  | nil =>
    intro pre m m2 hfold hinv hnd
    simp only [conflictsFold, Option.some.injEq] at hfold
    subst hfold
    simpa using ⟨hinv, hnd⟩
  | cons r rs ih =>
    intro pre m m2 hfold hinv hnd
    simp only [conflictsFold] at hfold
    cases hs : conflictsStep m r with
    | none => rw [hs] at hfold; exact Option.noConfusion hfold
    | some m1 =>
      rw [hs] at hfold
      cases hd : r.sect.data with
      | nil => simp [conflictsStep, hd] at hs
      | cons c tail =>
        simp only [conflictsStep, hd, Option.some.injEq] at hs
        have happ : pre ++ r :: rs = (pre ++ [r]) ++ rs := by simp
        rw [happ]
        by_cases hc : c = '4' ∨ c = '5' ∨ c = '7'
        · have hres : restrictedB r = true := by
            unfold restrictedB
            rw [hd]
            rcases hc with hc | hc | hc <;> simp [hc]
          have hm1 : m1 = addSect m r.page r.sect := by
            rw [← hs, if_pos hc]
          subst hm1
          refine ih (pre ++ [r]) _ m2 hfold ?_ (keysOfM_addSect_nodup m r.page r.sect hnd)
          intro page
          by_cases hpq : page = r.page
          · subst hpq
            rw [lookupA_addSect_self, hinv r.page, pageSects_append_hit pre r hres]
            unfold optSects
            by_cases hX : pageSects pre r.page = []
            · rw [if_pos hX, if_neg (pushNew_ne_nil _ _), hX]
              rfl
            · rw [if_neg hX, if_neg (pushNew_ne_nil _ _)]
              rfl
          · rw [lookupA_addSect_other m r.page r.sect page hpq, hinv page,
              pageSects_append_skip pre r page (by simp [Ne.symm hpq])]
        · have hres : restrictedB r = false := by
            unfold restrictedB
            rw [hd]
            simp only [Bool.or_eq_false_iff, beq_eq_false_iff_ne]
            push_neg at hc
            exact ⟨⟨hc.1, hc.2.1⟩, hc.2.2⟩
          have hm1 : m1 = m := by rw [← hs, if_neg hc]
          subst hm1
          refine ih (pre ++ [r]) _ m2 hfold ?_ hnd
          intro page
          rw [hinv page, pageSects_append_skip pre r page (by simp [hres])]

/-- C6 (amended): over the records whose section starts with `4`, `5` or
`7`, grouped by page name with sections deduplicated, the report contains
exactly the page names mapping to two or more distinct sections (singletons
produce no entry), each together with its distinct sections listed in order
of first appearance in the registry — the code does NOT sort the section
list (see the counterexample); the spec's two examples behave as stated. -/
theorem futzman_C6 (db : Database) (out : List (String × List String))
    (h : conflictsReport db = some out) :
    (∀ page ss, (page, ss) ∈ out ↔
      (ss = pageSects db.records page ∧ 2 ≤ ss.length)) ∧
    (∀ page s, s ∈ pageSects db.records page ↔
      ∃ r ∈ db.records, restrictedB r = true ∧ r.page = page ∧ r.sect = s) ∧
    (∀ page ss, (page, ss) ∈ out → ss.Nodup) ∧
    conflictsReport exConf = some [("open", ["4D", "5D"])] ∧
    conflictsReport exConfSingle = some [] := by
  have hmain : ∀ page ss, (page, ss) ∈ out ↔
      (ss = pageSects db.records page ∧ 2 ≤ ss.length) := by
    unfold conflictsReport at h
    cases hf : conflictsFold [] db.records with
    | none => rw [hf] at h; exact Option.noConfusion h
    | some m =>
      rw [hf] at h
      simp only [Option.some.injEq] at h
      subst h
      obtain ⟨hinv, hnd⟩ := conflictsFold_inv db.records [] [] m hf
        (fun page => rfl) List.nodup_nil
      have hinv2 : ∀ page, lookupA m page = optSects (pageSects db.records page) := by
        simpa using hinv
      intro page ss
      have hstep : (page, ss) ∈ (sortBy entryLe m).filter (fun e => 2 ≤ e.2.length) ↔
          (lookupA m page = some ss ∧ 2 ≤ ss.length) := by
        rw [List.mem_filter, (sortBy_perm entryLe m).mem_iff,
          mem_iff_lookupA m hnd page ss]
        simp
      rw [hstep, hinv2 page]
      unfold optSects
      by_cases hX : pageSects db.records page = []
      · rw [if_pos hX]
        constructor
        · intro hpair
          exact Option.noConfusion hpair.1
        · intro hpair
          obtain ⟨h1, h2⟩ := hpair
          subst h1
          rw [hX] at h2
          simp at h2
      · rw [if_neg hX]
        constructor
        · intro hpair
          obtain ⟨h1, h2⟩ := hpair
          injection h1 with h1
          exact ⟨h1.symm, h2⟩
        · intro hpair
          exact ⟨by rw [hpair.1], hpair.2⟩
  refine ⟨hmain, ?_, ?_, by decide, by decide⟩
  · intro page s
    unfold pageSects
    rw [firstDedup_mem]
    simp only [List.mem_map, List.mem_filter, Bool.and_eq_true, beq_iff_eq]
    constructor
    · rintro ⟨r, ⟨⟨hr, hres, hpg⟩, hsect⟩⟩
      exact ⟨r, hr, hres, hpg, hsect⟩
    · rintro ⟨r, hr, hres, hpg, hsect⟩
      exact ⟨r, ⟨⟨hr, hres, hpg⟩, hsect⟩⟩
  · intro page ss hmem
    obtain ⟨h1, -⟩ := (hmain page ss).1 hmem
    rw [h1]
    exact firstDedup_nodup _

/-- C6 counterexample to the claim as stated: with the two conflicting
records in reversed (still loadable) registry order, the reported section
list is `[5D, 4D]`, which is not sorted. -/
theorem futzman_C6_cex :
    conflictsReport exConfRev = some [("open", ["5D", "4D"])] ∧
    ¬ List.Pairwise (fun a b : String => strCmp a b ≠ .gt) ["5D", "4D"] :=
  ⟨by decide, by decide⟩

/-- Witness for `futzman_C6` on the spec's two-record example. -/
theorem futzman_C6_witness :
    (["4D", "5D"] : List String) = pageSects exConf.records "open" ∧
    2 ≤ (["4D", "5D"] : List String).length :=
  ((futzman_C6 exConf [("open", ["4D", "5D"])] (by decide)).1 "open" ["4D", "5D"]).1
    (by decide)
